import Mathlib

/-!
Verification of the link-resolution and caching core of the
`obsidian-cross-vault` plugin (TypeScript sources under `src/`).

The repository contains two redundant implementations of the core:

* variant A (`src/main.ts`, lines 1–832): regex-cascade URI parser
  (`parseObsidianUrl`), multi-candidate `resolveFile` with local-copy
  fallback, `getLocalCopyPath` / `createLocalCopy`;
* variant B (`src/main.ts` lines 832–1239 and `src/unnamed/part_002`):
  `URL`-object parser (`parseObsidianUrl`), `getFileFromVault`,
  `cacheFileLocally`, registry `addVaultMapping` / `getVaultMapping` /
  `removeVaultMapping`.

The filesystem is modelled as a partial map from path strings to file
contents; `fs.existsSync p` is `(fs p).isSome`, `fs.readFileSync p` is
`fs p`, and writes update the map.  `path.join a b` is modelled as
interposing a single `/` between the segments; Node's additional
separator collapsing inside `join` is immaterial to the properties
proved here, which treat paths as opaque keys.
-/

/-- A filesystem: partial map from path to content. -/
def FS : Type := String → Option String

/-- Model of Node's `path.join` on two segments. -/
def pathJoin (a b : String) : String := a ++ "/" ++ b

/-- First element of a path list that exists in `fs` (the candidate
loop of `resolveFile` in variant A). -/
def firstExisting (fs : FS) : List String → Option String
  | [] => none
  | p :: ps => if (fs p).isSome then some p else firstExisting fs ps

theorem firstExisting_eq_none_iff (fs : FS) (l : List String) :
    firstExisting fs l = none ↔ ∀ p ∈ l, fs p = none := by
  induction l with
  | nil => simp [firstExisting]
  | cons p ps ih =>
    simp only [firstExisting]
    by_cases h : (fs p).isSome
    · rcases Option.isSome_iff_exists.mp h with ⟨c, hc⟩
      simp [h, hc]
    · have h0 : fs p = none := by
        cases hfp : fs p with
        | none => rfl
        | some c => exact absurd (by simp [hfp]) h
      simp [h, ih, h0]

/-! ### Generic run-collapsing (model of `replace(/X+/g, rep)`) -/

/-- Replace every maximal run of characters satisfying `p` by the single
character `rep` (the semantics of the JS global replaces
`replace(/[\\\/]+/g, '/')` and `replace(/\s+/g, ' ')`). -/
def collapseRuns (p : Char → Bool) (rep : Char) : List Char → List Char
  | [] => []
  | c :: cs =>
    if p c then
      match cs with
      | [] => [rep]
      | d :: _ => if p d then collapseRuns p rep cs else rep :: collapseRuns p rep cs
    else c :: collapseRuns p rep cs

/-- Separator characters normalised by the plugin (`[\\\/]`). -/
def isSep (c : Char) : Bool := c = '/' || c = '\\'

/-- Whitespace as matched by the JS `\s` class, restricted to the ASCII
whitespace characters relevant here. -/
def isWs (c : Char) : Bool := c = ' ' || c = '\t' || c = '\n' || c = '\r'

/-- `file.replace(/[\\\/]+/g, '/')` on a char list. -/
def normSeps (l : List Char) : List Char := collapseRuns isSep '/' l

/-- `file.replace(/\s+/g, ' ')` on a char list. -/
def collapseWs (l : List Char) : List Char := collapseRuns isWs ' ' l

/-- Does `l` start with `pre`? -/
def leadsWith : List Char → List Char → Bool
  | [], _ => true
  | _ :: _, [] => false
  | p :: ps, c :: cs => p = c && leadsWith ps cs

/-- Drop a literal leading `pre` from `l`, if present. -/
def dropLead : List Char → List Char → Option (List Char)
  | [], l => some l
  | _ :: _, [] => none
  | p :: ps, c :: cs => if p = c then dropLead ps cs else none

/-- Does `l` end with `suf`? -/
def trailsWith (suf l : List Char) : Bool := leadsWith suf.reverse l.reverse

/-- `file.replace(/\.md$/, '')`: strip one trailing `.md`. -/
def stripMd (l : List Char) : List Char :=
  if trailsWith ['.', 'm', 'd'] l then l.dropLast.dropLast.dropLast else l

/-- `file.replace(/%20/g, ' ')`. -/
def pct20ToSpace : List Char → List Char
  | [] => []
  | c :: rest =>
    if c = '%' then
      match rest with
      | '2' :: '0' :: rest2 => ' ' :: pct20ToSpace rest2
      | r => c :: pct20ToSpace r
    else c :: pct20ToSpace rest

/-- The file-reference normalisation applied by variant A's
`parseObsidianUrl` after component decoding: strip one trailing `.md`,
normalise path separators, collapse whitespace runs, replace literal
`%20` by spaces (in exactly this order). -/
def normalizeFile (s : String) : String :=
  ⟨pct20ToSpace (collapseWs (normSeps (stripMd s.data)))⟩

example : normalizeFile "a.md.md" = "a.md" := by decide
example : normalizeFile "a.md" = "a" := by decide
example : normalizeFile "a%20 b" = "a  b" := by decide
example : normalizeFile "a\\b//c" = "a/b/c" := by decide
example : ("ab".data = ['a', 'b']) := by decide

/-! ### Percent decoding (model of JS `decodeURIComponent`) -/

/-- Value of a hex digit. -/
def hexDigitVal? (c : Char) : Option Nat :=
  if '0' ≤ c ∧ c ≤ '9' then some (c.toNat - '0'.toNat)
  else if 'a' ≤ c ∧ c ≤ 'f' then some (c.toNat - 'a'.toNat + 10)
  else if 'A' ≤ c ∧ c ≤ 'F' then some (c.toNat - 'A'.toNat + 10)
  else none

def hexPair? (c1 c2 : Char) : Option Nat :=
  match hexDigitVal? c1, hexDigitVal? c2 with
  | some h1, some h2 => some (16 * h1 + h2)
  | _, _ => none

/-- UTF-8 bytes (as `Nat`s) of a character. -/
def charUtf8Bytes (c : Char) : List Nat :=
  if c.toNat < 0x80 then [c.toNat]
  else if c.toNat < 0x800 then
    [0xC0 + c.toNat / 64, 0x80 + c.toNat % 64]
  else if c.toNat < 0x10000 then
    [0xE0 + c.toNat / 4096, 0x80 + c.toNat / 64 % 64, 0x80 + c.toNat % 64]
  else
    [0xF0 + c.toNat / 262144, 0x80 + c.toNat / 4096 % 64,
     0x80 + c.toNat / 64 % 64, 0x80 + c.toNat % 64]

/-- Is `b` a UTF-8 continuation byte? -/
def isCont (b : Nat) : Bool := 0x80 ≤ b && b < 0xC0

/-- Decode one UTF-8 sequence from the front of the byte list,
rejecting overlong forms, surrogates and out-of-range code points. -/
def utf8DecodeOne : List Nat → Option (Char × List Nat)
  | [] => none
  | b :: rest =>
    if b < 0x80 then some (Char.ofNat b, rest)
    else if b < 0xC2 then none
    else if b < 0xE0 then
      match rest with
      | b2 :: rest2 =>
        if isCont b2 then some (Char.ofNat ((b - 0xC0) * 64 + (b2 - 0x80)), rest2)
        else none
      | _ => none
    else if b < 0xF0 then
      match rest with
      | b2 :: b3 :: rest2 =>
        if isCont b2 && isCont b3 &&
            !(b = 0xE0 && b2 < 0xA0) && !(b = 0xED && 0xA0 ≤ b2) then
          some (Char.ofNat ((b - 0xE0) * 4096 + (b2 - 0x80) * 64 + (b3 - 0x80)), rest2)
        else none
      | _ => none
    else if b < 0xF5 then
      match rest with
      | b2 :: b3 :: b4 :: rest2 =>
        if isCont b2 && isCont b3 && isCont b4 &&
            !(b = 0xF0 && b2 < 0x90) && !(b = 0xF4 && 0x90 ≤ b2) then
          some (Char.ofNat ((b - 0xF0) * 262144 + (b2 - 0x80) * 4096 +
            (b3 - 0x80) * 64 + (b4 - 0x80)), rest2)
        else none
      | _ => none
    else none

/-- Strict UTF-8 decoding (the decoder behind `decodeURIComponent`):
iterate `utf8DecodeOne`.  The fuel parameter keeps the recursion
structural; the list length is always enough fuel, since every
sequence consumes at least one byte. -/
def utf8DecodeF : Nat → List Nat → Option (List Char)
  | _, [] => some []
  | 0, _ :: _ => none
  | fuel + 1, b :: rest =>
    match utf8DecodeOne (b :: rest) with
    | none => none
    | some (c, rest2) => (utf8DecodeF fuel rest2).map (fun l => c :: l)

def utf8Decode (l : List Nat) : Option (List Char) := utf8DecodeF l.length l

/-- The `%XX`-to-bytes phase of `decodeURIComponent`: every `%` must be
followed by two hex digits; other characters contribute their UTF-8
bytes. -/
def percentDecodeBytes : List Char → Option (List Nat)
  | [] => some []
  | c :: rest =>
    if c = '%' then
      match rest with
      | c1 :: c2 :: rest2 =>
        match hexPair? c1 c2 with
        | some b => (percentDecodeBytes rest2).map (fun bs => b :: bs)
        | none => none
      | _ => none
    else (percentDecodeBytes rest).map (fun bs => charUtf8Bytes c ++ bs)

/-- Model of `decodeURIComponent`: `none` models a thrown `URIError`. -/
def decodeURIComponentOpt (s : String) : Option String :=
  match percentDecodeBytes s.data with
  | none => none
  | some bs => (utf8Decode bs).map (fun l => ⟨l⟩)

/-- `try { decodeURIComponent(s) } catch { s }` — the pervasive
decode-or-keep idiom of variant A's parser. -/
def tryDecodeURIComponent (s : String) : String :=
  (decodeURIComponentOpt s).getD s

example : tryDecodeURIComponent "a%20b" = "a b" := by decide
example : tryDecodeURIComponent "100%" = "100%" := by decide
example : decodeURIComponentOpt "100%" = none := by decide
example : decodeURIComponentOpt "%2520" = some "%20" := by decide

/-! ### Variant A resolver (`resolveFile`, `getLocalCopyPath`,
`createLocalCopy` in `src/main.ts`) -/

/-- `.replace(/[\\\/]+/g, '/')` on a string. -/
def normSepsStr (s : String) : String := ⟨normSeps s.data⟩

/-- JS `toLowerCase()` (ASCII range, as relevant here). -/
def toLowerStr (s : String) : String := ⟨s.data.map Char.toLower⟩

/-- JS `toUpperCase()` (ASCII range, as relevant here). -/
def toUpperStr (s : String) : String := ⟨s.data.map Char.toUpper⟩

/-- `.replace(/%20/g, ' ')` on a string. -/
def replacePct20 (s : String) : String := ⟨pct20ToSpace s.data⟩

/-- `getLocalCopyPath`: `join(adapter.path, vault)` joined with
`file + '.md'` — the derived cache path. -/
def getLocalCopyPath (adapterPath vault file : String) : String :=
  pathJoin (pathJoin adapterPath vault) (file ++ ".md")

/-- `createLocalCopy`: `copyFileSync(sourcePath, localPath)`; directory
creation has no observable effect in the path-map model. -/
def createLocalCopy (fs : FS) (adapterPath vault file sourcePath : String) : FS :=
  fun p => if p = getLocalCopyPath adapterPath vault file then fs sourcePath else fs p

/-- The `possiblePaths` array built by `resolveFile` (variant A), in
source order: `.md`, bare, `index.md`, the two `%20`-decoded variants,
then lower-case and upper-case with `.md`. -/
def possiblePaths (nvp nf : String) : List String :=
  [ pathJoin nvp (nf ++ ".md"),
    pathJoin nvp nf,
    pathJoin (pathJoin nvp nf) "index.md",
    pathJoin nvp (replacePct20 nf ++ ".md"),
    pathJoin nvp (replacePct20 nf),
    pathJoin nvp (toLowerStr nf ++ ".md"),
    pathJoin nvp (toUpperStr nf ++ ".md") ]

/-- `resolveFile` (variant A): probe the candidate list; on failure and
with local copy enabled for the vault, fall back to the derived cache
path, and otherwise attempt `createLocalCopy` from `possiblePaths[0]`.
Returns the possibly-updated filesystem and the resolved path. -/
def resolveFile (fs : FS) (adapterPath vault file vaultPath : String)
    (enableLocalCopy : String → Bool) : FS × Option String :=
  match firstExisting fs (possiblePaths (normSepsStr vaultPath) (normSepsStr file)) with
  | some p => (fs, some p)
  | none =>
    if enableLocalCopy vault then
      if (fs (getLocalCopyPath adapterPath vault file)).isSome then
        (fs, some (getLocalCopyPath adapterPath vault file))
      else
        -- `originalPath = possiblePaths[0]`
        if (fs (pathJoin (normSepsStr vaultPath) (normSepsStr file ++ ".md"))).isSome then
          (createLocalCopy fs adapterPath vault file
              (pathJoin (normSepsStr vaultPath) (normSepsStr file ++ ".md")),
           some (getLocalCopyPath adapterPath vault file))
        else (fs, none)
    else (fs, none)

/-- Reading the content at the path produced by `resolveFile`, as the
plugin's hover preview and file opener do (`readFileSync`). -/
def fetchViaResolve (fs : FS) (adapterPath vault file vaultPath : String)
    (enableLocalCopy : String → Bool) : Option String :=
  match (resolveFile fs adapterPath vault file vaultPath enableLocalCopy).2 with
  | some p => fs p
  | none => none

/-! ### Variant B fetch pipeline and registry -/

structure VaultMapping where
  name : String
  path : String
  enableLocalCache : Bool
deriving DecidableEq

/-- `getFileFromVault` (variant B): read `path/fileName.md`, then
`path/fileName`; the cache is never consulted here. -/
def getFileFromVault (fs : FS) (m : VaultMapping) (fileName : String) : Option String :=
  match fs (pathJoin m.path (fileName ++ ".md")) with
  | some content => some content
  | none => fs (pathJoin m.path fileName)

/-- `cacheFileLocally` (variant B): write `content` at
`basePath/vaultName/fileName.md`, overwriting any prior cache entry. -/
def cacheFileLocally (fs : FS) (basePath vaultName fileName content : String) : FS :=
  fun p =>
    if p = pathJoin (pathJoin basePath vaultName) (fileName ++ ".md") then some content
    else fs p

/-- The fetch pipeline of variant B: `processObsidianLink` reads the
source via `getFileFromVault`; `openCrossVaultFile` then calls
`cacheFileLocally` with that content when the mapping has
`enableLocalCache`.  Composition of the two steps. -/
def fetchFromVault (fs : FS) (basePath : String) (m : VaultMapping)
    (fileName : String) : FS × Option String :=
  match getFileFromVault fs m fileName with
  | none => (fs, none)
  | some content =>
    (if m.enableLocalCache then cacheFileLocally fs basePath m.name fileName content else fs,
     some content)

/-- `addVaultMapping` (variant B): drop any mapping with the same name,
then append. -/
def addVaultMapping (l : List VaultMapping) (m : VaultMapping) : List VaultMapping :=
  (l.filter fun x => x.name != m.name) ++ [m]

/-- `getVaultMapping` (variant B): first mapping with the given name. -/
def getVaultMapping (l : List VaultMapping) (name : String) : Option VaultMapping :=
  l.find? fun x => x.name == name

/-! ### Spec-side resolver candidate list (for claim C2) -/

/-- Modelled from the spec §4.3: the ordered candidate list the spec
prescribes — the three base candidates, the *same three* with `%20`
converted to spaces, then the case-folded `.md` variants. -/
def specResolveCandidates (root fileRef : String) : List String :=
  [ pathJoin root (fileRef ++ ".md"),
    pathJoin root fileRef,
    pathJoin (pathJoin root fileRef) "index.md",
    pathJoin root (replacePct20 fileRef ++ ".md"),
    pathJoin root (replacePct20 fileRef),
    pathJoin (pathJoin root (replacePct20 fileRef)) "index.md",
    pathJoin root (toLowerStr fileRef ++ ".md"),
    pathJoin root (toUpperStr fileRef ++ ".md") ]

/-! ### Claim C4 — `resolveFile` performs no filesystem writes -/

/-- C4: `resolve` performs no writes: for every filesystem, adapter
path, vault, file reference, vault path and local-copy setting, the
filesystem returned by `resolveFile` is the one it was given.  The
`createLocalCopy` branch in the source is unreachable: it requires
`possiblePaths[0]` to exist after the candidate loop — which probed
that very path — found nothing. -/
theorem resolveFile_writes_nothing (fs : FS) (ap v f vp : String)
    (ecl : String → Bool) :
    (resolveFile fs ap v f vp ecl).1 = fs := by
  unfold resolveFile
  cases hfe : firstExisting fs (possiblePaths (normSepsStr vp) (normSepsStr f)) with
  | some p => rfl
  | none =>
    have hall := (firstExisting_eq_none_iff fs _).mp hfe
    have h0 : fs (pathJoin (normSepsStr vp) (normSepsStr f ++ ".md")) = none := by
      apply hall
      simp [possiblePaths]
    simp only [h0, Option.isSome_none, Bool.false_eq_true, if_false]
    cases hecl : ecl v <;> simp only [hecl, Bool.false_eq_true, if_false, if_true]
    cases hlc : (fs (getLocalCopyPath ap v f)).isSome <;>
      simp only [hlc, Bool.false_eq_true, if_false, if_true]

/-! ### Claim C1 — source wins over cache, cache overwritten -/

/-- C1: for a cache-enabled mapping where the source file and the
derived cache file both exist with different content, the variant-B
fetch pipeline returns the source's content and leaves the source
content written over the prior cache content. -/
theorem fetchFromVault_source_wins (fs : FS) (basePath : String)
    (m : VaultMapping) (fileName cs cc : String)
    (hcache : m.enableLocalCache = true)
    (hsrc : fs (pathJoin m.path (fileName ++ ".md")) = some cs)
    (hcc : fs (pathJoin (pathJoin basePath m.name) (fileName ++ ".md")) = some cc)
    (hne : cs ≠ cc) :
    (fetchFromVault fs basePath m fileName).2 = some cs ∧
    (fetchFromVault fs basePath m fileName).1
        (pathJoin (pathJoin basePath m.name) (fileName ++ ".md")) = some cs := by
  have hget : getFileFromVault fs m fileName = some cs := by
    unfold getFileFromVault
    rw [hsrc]
  unfold fetchFromVault
  rw [hget]
  simp [hcache, cacheFileLocally]

def fsC1 : FS := fun p =>
  if p = "root/n.md" then some "S" else if p = "base/V/n.md" then some "C" else none

theorem fetchFromVault_source_wins_witness :
    (fetchFromVault fsC1 "base" ⟨"V", "root", true⟩ "n").2 = some "S" ∧
    (fetchFromVault fsC1 "base" ⟨"V", "root", true⟩ "n").1
        (pathJoin (pathJoin "base" "V") ("n" ++ ".md")) = some "S" :=
  fetchFromVault_source_wins fsC1 "base" ⟨"V", "root", true⟩ "n" "S" "C" rfl
    (by decide) (by decide) (by decide)

/-! ### Claim C5 — cache fallback when the source is gone -/

/-- C5: for a cache-enabled mapping where no source candidate path
exists but the derived cache path does, fetching through the variant-A
resolver returns the cache file's content. -/
theorem fetchViaResolve_cache_fallback (fs : FS) (ap v f vp : String)
    (ecl : String → Bool) (c : String)
    (hecl : ecl v = true)
    (hnone : ∀ p ∈ possiblePaths (normSepsStr vp) (normSepsStr f), fs p = none)
    (hcache : fs (getLocalCopyPath ap v f) = some c) :
    fetchViaResolve fs ap v f vp ecl = some c := by
  have hfe : firstExisting fs (possiblePaths (normSepsStr vp) (normSepsStr f)) = none :=
    (firstExisting_eq_none_iff fs _).mpr hnone
  unfold fetchViaResolve resolveFile
  rw [hfe]
  simp [hecl, hcache]

def fsC5 : FS := fun p => if p = "base/V/n.md" then some "C" else none

theorem fetchViaResolve_cache_fallback_witness :
    fetchViaResolve fsC5 "base" "V" "n" "root" (fun _ => true) = some "C" :=
  fetchViaResolve_cache_fallback fsC5 "base" "V" "n" "root" (fun _ => true) "C"
    rfl (by decide) (by decide)

/-! ### Claim C7 — registry upsert / lookup round-trip -/

theorem length_filter_not_add_countP {α : Type} (p : α → Bool) (l : List α) :
    (l.filter fun a => !(p a)).length + l.countP p = l.length := by
  induction l with
  | nil => simp
  | cons x xs ih =>
    by_cases h : p x = true <;> simp [List.filter_cons, List.countP_cons, h] <;> omega

/-- C7: for a registry with at most one entry named `m.name` (the
registry invariant) and `m.name` non-empty, after `addVaultMapping m` a
`getVaultMapping m.name` returns `m` itself (new values win), and the
registry size is unchanged exactly when an entry with that name already
existed (and grows by one otherwise). -/
theorem addVaultMapping_upsert (l : List VaultMapping) (m : VaultMapping)
    (hname : m.name ≠ "")
    (huniq : l.countP (fun x => x.name == m.name) ≤ 1) :
    getVaultMapping (addVaultMapping l m) m.name = some m ∧
    (addVaultMapping l m).length =
      (if l.countP (fun x => x.name == m.name) = 1 then l.length else l.length + 1) := by
  constructor
  · unfold getVaultMapping addVaultMapping
    rw [List.find?_append]
    have h1 : (l.filter fun x => x.name != m.name).find? (fun x => x.name == m.name)
        = none := by
      rw [List.find?_eq_none]
      intro x hx
      have h2 := (List.mem_filter.mp hx).2
      simp [bne] at h2
      simp [h2]
    rw [h1]
    simp [List.find?]
  · unfold addVaultMapping
    have hlen := length_filter_not_add_countP (fun x => x.name == m.name) l
    have hfeq : (l.filter fun x => x.name != m.name)
        = (l.filter fun x => !((fun y : VaultMapping => y.name == m.name) x)) := rfl
    rw [List.length_append, hfeq]
    simp only [List.length_singleton]
    by_cases hc : l.countP (fun x => x.name == m.name) = 1
    · rw [if_pos hc]
      omega
    · rw [if_neg hc]
      omega

theorem addVaultMapping_upsert_witness :
    getVaultMapping (addVaultMapping [⟨"A", "p1", false⟩] ⟨"A", "p2", true⟩) "A"
        = some ⟨"A", "p2", true⟩ ∧
    (addVaultMapping [⟨"A", "p1", false⟩] ⟨"A", "p2", true⟩).length =
      (if List.countP (fun x => x.name == "A") [(⟨"A", "p1", false⟩ : VaultMapping)] = 1
       then ([⟨"A", "p1", false⟩] : List VaultMapping).length
       else ([⟨"A", "p1", false⟩] : List VaultMapping).length + 1) :=
  addVaultMapping_upsert [⟨"A", "p1", false⟩] ⟨"A", "p2", true⟩ (by decide) (by decide)

/-! ### Claim C2 — resolver candidate order -/

def fsC2 : FS := fun p => if p = "root/a b/index.md" then some "" else none

/-- C2 counterexample: the spec's §4.3 list has *three* `%20`-decoded
candidates (including `root/<decoded>/index.md`), but the code builds
only two; with only `root/a b/index.md` on disk and `fileRef = "a%20b"`
the spec's list resolves while `resolveFile` returns `none`. -/
theorem resolveFile_spec_order_counterexample :
    firstExisting fsC2 (specResolveCandidates "root" "a%20b")
        = some "root/a b/index.md" ∧
    (resolveFile fsC2 "base" "V" "a%20b" "root" (fun _ => false)).2 = none := by
  decide

/-- C2 (amended): with the local-copy fallback disabled, `resolveFile`
returns the first existing candidate of the code's fixed ordered list —
`f.md`, `f`, `f/index.md`, then only *two* `%20`-decoded variants
(`.md` and bare, no `index.md`), then the lower- and upper-case
foldings with `.md`, all after separator normalisation — and `none`
when no candidate exists. -/
theorem resolveFile_first_candidate (fs : FS) (ap v f vp : String)
    (ecl : String → Bool) (hecl : ecl v = false) :
    (resolveFile fs ap v f vp ecl).2 =
      firstExisting fs
        [ pathJoin (normSepsStr vp) (normSepsStr f ++ ".md"),
          pathJoin (normSepsStr vp) (normSepsStr f),
          pathJoin (pathJoin (normSepsStr vp) (normSepsStr f)) "index.md",
          pathJoin (normSepsStr vp) (replacePct20 (normSepsStr f) ++ ".md"),
          pathJoin (normSepsStr vp) (replacePct20 (normSepsStr f)),
          pathJoin (normSepsStr vp) (toLowerStr (normSepsStr f) ++ ".md"),
          pathJoin (normSepsStr vp) (toUpperStr (normSepsStr f) ++ ".md") ] := by
  have hpp : possiblePaths (normSepsStr vp) (normSepsStr f) =
      [ pathJoin (normSepsStr vp) (normSepsStr f ++ ".md"),
        pathJoin (normSepsStr vp) (normSepsStr f),
        pathJoin (pathJoin (normSepsStr vp) (normSepsStr f)) "index.md",
        pathJoin (normSepsStr vp) (replacePct20 (normSepsStr f) ++ ".md"),
        pathJoin (normSepsStr vp) (replacePct20 (normSepsStr f)),
        pathJoin (normSepsStr vp) (toLowerStr (normSepsStr f) ++ ".md"),
        pathJoin (normSepsStr vp) (toUpperStr (normSepsStr f) ++ ".md") ] := rfl
  rw [← hpp]
  unfold resolveFile
  cases hfe : firstExisting fs (possiblePaths (normSepsStr vp) (normSepsStr f)) with
  | some p => rfl
  | none => simp [hecl]

theorem resolveFile_first_candidate_witness :
    (resolveFile fsC2 "base" "V" "a%20b" "root" (fun _ => false)).2 =
      firstExisting fsC2
        [ pathJoin (normSepsStr "root") (normSepsStr "a%20b" ++ ".md"),
          pathJoin (normSepsStr "root") (normSepsStr "a%20b"),
          pathJoin (pathJoin (normSepsStr "root") (normSepsStr "a%20b")) "index.md",
          pathJoin (normSepsStr "root") (replacePct20 (normSepsStr "a%20b") ++ ".md"),
          pathJoin (normSepsStr "root") (replacePct20 (normSepsStr "a%20b")),
          pathJoin (normSepsStr "root") (toLowerStr (normSepsStr "a%20b") ++ ".md"),
          pathJoin (normSepsStr "root") (toUpperStr (normSepsStr "a%20b") ++ ".md") ] :=
  resolveFile_first_candidate fsC2 "base" "V" "a%20b" "root" (fun _ => false) rfl

/-! ### Variant A URI parser (`parseObsidianUrl`, `src/main.ts` 82–171)

Each of the four regex patterns of the source is compiled by hand to a
deterministic anchored matcher (the patterns are concrete enough that
JS backtracking resolves uniquely; see the comments on each matcher),
and `String.match`'s unanchored search is modelled by trying the
anchored matcher at every start position, leftmost first. -/

/-- Leftmost-first unanchored search: try the anchored matcher at every
start position in order. -/
def tryAll {α : Type} (m : List Char → Option α) : List Char → Option α
  | [] => m []
  | c :: cs =>
    match m (c :: cs) with
    | some r => some r
    | none => tryAll m cs

/-- Group captured by `(.+?)(?:\.md)?$` on the remainder `s`: the lazy
group takes the shortest non-empty prefix, so one trailing `.md` is
stripped whenever at least one character remains; fails on `s = []`. -/
def lazyTailMd (s : List Char) : Option (List Char) :=
  if s = [] then none
  else if trailsWith ['.', 'm', 'd'] s ∧ 4 ≤ s.length then
    some s.dropLast.dropLast.dropLast
  else some s

/-- Anchored `/obsidian:\/\/open\?vault=([^&]+)&file=(.+?)(?:\.md)?$/`:
the greedy `[^&]+` group is the maximal `&`-free run (backtracking
cannot help, since any shorter prefix is followed by a non-`&`
character where `&file=` cannot start). -/
def matchP1At (l : List Char) : Option (List Char × List Char) :=
  match dropLead "obsidian://open?vault=".data l with
  | none => none
  | some r =>
    if r.takeWhile (fun c => !(c = '&')) = [] then none
    else
      match dropLead "&file=".data (r.dropWhile (fun c => !(c = '&'))) with
      | none => none
      | some r3 => (lazyTailMd r3).map (fun g2 => (r.takeWhile (fun c => !(c = '&')), g2))

/-- Anchored
`/obsidian:\/\/open\?vault=([^&\s]+)\s*&\s*file=([^&\s]+)(?:\.md)?$/`:
both groups are maximal runs outside `&`/whitespace; the trailing
`(?:\.md)?$` forces the second group to reach the end of the string
(so a trailing `.md` is *not* stripped by this pattern). -/
def matchP2At (l : List Char) : Option (List Char × List Char) :=
  match dropLead "obsidian://open?vault=".data l with
  | none => none
  | some r =>
    if r.takeWhile (fun c => !(c = '&' || isWs c)) = [] then none
    else
      match (r.dropWhile (fun c => !(c = '&' || isWs c))).dropWhile isWs with
      | '&' :: r4 =>
        match dropLead "file=".data (r4.dropWhile isWs) with
        | none => none
        | some r6 =>
          if r6 ≠ [] ∧ r6.dropWhile (fun c => !(c = '&' || isWs c)) = [] then
            some (r.takeWhile (fun c => !(c = '&' || isWs c)), r6)
          else none
      | _ => none

/-- Anchored
`/obsidian:\/\/open\?\s*vault=([^&]+)\s*&\s*file=(.+?)(?:\.md)?$/`:
as pattern 1 but allowing whitespace after `open?` and around `&`
(the `\s*` before `&` never captures, because the greedy `[^&]+`
already consumed any whitespace). -/
def matchP3At (l : List Char) : Option (List Char × List Char) :=
  match dropLead "obsidian://open?".data l with
  | none => none
  | some r0 =>
    match dropLead "vault=".data (r0.dropWhile isWs) with
    | none => none
    | some r =>
      if r.takeWhile (fun c => !(c = '&')) = [] then none
      else
        match r.dropWhile (fun c => !(c = '&')) with
        | '&' :: r4 =>
          match dropLead "file=".data (r4.dropWhile isWs) with
          | none => none
          | some r6 => (lazyTailMd r6).map (fun g2 => (r.takeWhile (fun c => !(c = '&')), g2))
        | _ => none

/-- Continuation check for pattern 4's first alternative
`file=(.+?)(?:\.md)?&vault=([^&]+)` at a candidate split point: the
optional `.md` is preferred, `&vault=` must follow, and the vault
capture must be a non-empty `&`-free run reaching the end (`$`). -/
def p4Alt1Cont (rest : List Char) : Option (List Char) :=
  match dropLead ".md&vault=".data rest with
  | some v => if v ≠ [] ∧ v.all (fun c => !(c = '&')) then some v else none
  | none =>
    match dropLead "&vault=".data rest with
    | some v => if v ≠ [] ∧ v.all (fun c => !(c = '&')) then some v else none
    | none => none

/-- Lazy scan for pattern 4's first alternative: smallest non-empty
split `s = g ++ rest` whose continuation succeeds. -/
def p4Alt1Scan : List Char → List Char → Option (List Char × List Char)
  | _, [] => none
  | acc, c :: rest =>
    match p4Alt1Cont rest with
    | some v => some (acc ++ [c], v)
    | none => p4Alt1Scan (acc ++ [c]) rest

/-- Pattern 4's second alternative `vault=([^&]+)&file=(.+?)(?:\.md)?$`
(same shape as pattern 1's tail). -/
def p4Alt2 (r : List Char) :
    Option (Sum (List Char × List Char) (List Char × List Char)) :=
  match dropLead "vault=".data r with
  | none => none
  | some rv =>
    if rv.takeWhile (fun c => !(c = '&')) = [] then none
    else
      match dropLead "&file=".data (rv.dropWhile (fun c => !(c = '&'))) with
      | none => none
      | some r3 =>
        (lazyTailMd r3).map (fun g4 => Sum.inr (rv.takeWhile (fun c => !(c = '&')), g4))

/-- Anchored
`/obsidian:\/\/open\?(?:file=(.+?)(?:\.md)?&vault=([^&]+)|vault=([^&]+)&file=(.+?)(?:\.md)?)$/`:
left alternative (file first, captures in groups 1/2) is preferred;
`Sum.inl` carries its captures, `Sum.inr` the vault-first captures
(groups 3/4). -/
def matchP4At (l : List Char) :
    Option (Sum (List Char × List Char) (List Char × List Char)) :=
  match dropLead "obsidian://open?".data l with
  | none => none
  | some r =>
    match dropLead "file=".data r with
    | some rf =>
      match p4Alt1Scan [] rf with
      | some (g1, g2) => some (Sum.inl (g1, g2))
      | none => p4Alt2 r
    | none => p4Alt2 r

/-- Anchored `/vault=([^&\s]+)/`-style manual extraction at one start
position: the literal key followed by a non-empty maximal run outside
`&`/whitespace. -/
def manualExtractAt (key : String) (l : List Char) : Option (List Char) :=
  match dropLead key.data l with
  | none => none
  | some r =>
    if r.takeWhile (fun c => !(c = '&' || isWs c)) = [] then none
    else some (r.takeWhile (fun c => !(c = '&' || isWs c)))

/-- The result of the pattern cascade, remembering which capture-array
shape the source will inspect. -/
inductive RegexMatch where
  | a13 (g1 g2 : List Char)
  | p4FileFirst (g1 g2 : List Char)
  | p4VaultFirst (g3 g4 : List Char)

/-- The pattern cascade of `parseObsidianUrl`: patterns 1–4 in order,
then the manual `vault=` / `file=` regex fallback. -/
def matchPatterns (u : List Char) : Option RegexMatch :=
  match tryAll matchP1At u with
  | some (g1, g2) => some (.a13 g1 g2)
  | none =>
    match tryAll matchP2At u with
    | some (g1, g2) => some (.a13 g1 g2)
    | none =>
      match tryAll matchP3At u with
      | some (g1, g2) => some (.a13 g1 g2)
      | none =>
        match tryAll matchP4At u with
        | some (Sum.inl (g1, g2)) => some (.p4FileFirst g1 g2)
        | some (Sum.inr (g3, g4)) => some (.p4VaultFirst g3 g4)
        | none =>
          match tryAll (manualExtractAt "vault=") u, tryAll (manualExtractAt "file=") u with
          | some v, some f => some (.a13 v f)
          | _, _ => none

/-- The source's `match[3] !== undefined` discrimination: pattern 4's
vault-first alternative fills slots 3/4 and is read back correctly,
but its file-first alternative fills slots 1/2, so the `else` branch
assigns `vault := match[1]` — the *file* capture — and
`file := match[2]` — the *vault* capture. -/
def selectComponents : RegexMatch → List Char × List Char
  | .a13 g1 g2 => (g1, g2)
  | .p4FileFirst g1 g2 => (g1, g2)
  | .p4VaultFirst g3 g4 => (g3, g4)

/-- The raw `(vault, file)` extraction phase of variant A's
`parseObsidianUrl`: decode the whole URL (keeping it on `URIError`),
run the pattern cascade, read the capture slots. -/
def extractRaw (url : String) : Option (String × String) :=
  (matchPatterns (tryDecodeURIComponent url).data).map
    (fun m => (⟨(selectComponents m).1⟩, ⟨(selectComponents m).2⟩))

structure ParsedLink where
  vault : String
  file : String
deriving DecidableEq

/-- Variant A `parseObsidianUrl`: extraction, the `!vault || !file`
guard, per-component decode-or-keep, and file normalisation. -/
def parseObsidianUrl (url : String) : Option ParsedLink :=
  match extractRaw url with
  | none => none
  | some (vault, file) =>
    if vault = "" ∨ file = "" then none
    else
      some { vault := tryDecodeURIComponent vault
             file := normalizeFile (tryDecodeURIComponent file) }

example : parseObsidianUrl "obsidian://open?vault=MyVault&file=Note"
    = some ⟨"MyVault", "Note"⟩ := by decide
example : parseObsidianUrl "obsidian://open?vault=MyVault&file=Note.md"
    = some ⟨"MyVault", "Note"⟩ := by decide
example : parseObsidianUrl "obsidian://open?file=Note&vault=MyVault"
    = some ⟨"Note", "MyVault"⟩ := by decide
example : parseObsidianUrl "vault=a&file=b" = some ⟨"a", "b"⟩ := by decide
example : parseObsidianUrl "obsidian://open?vault=V&file=.md" = some ⟨"V", ""⟩ := by decide
example : parseObsidianUrl "nonsense" = none := by decide
example : parseObsidianUrl
      "obsidian://open?vault=Obsidian_Technology&file=Creating%20an%20ERP%20ring"
    = some ⟨"Obsidian_Technology", "Creating an ERP ring"⟩ := by decide

/-! ### Variant B URI parser (`new URL`-based `parseObsidianUrl`) -/

structure ObsidianUrl where
  vault : String
  file : String
  originalUrl : String
deriving DecidableEq

/-- Lenient UTF-8 decoding as used by `URLSearchParams`: invalid
sequences yield U+FFFD instead of an error.  Written with a fuel
parameter (the list length suffices: every step consumes at least one
byte) to keep the definition kernel-reducible. -/
def utf8DecodeLenientF : Nat → List Nat → List Char
  | 0, _ => []
  | _, [] => []
  | fuel + 1, b :: rest =>
    if b < 0x80 then Char.ofNat b :: utf8DecodeLenientF fuel rest
    else if b < 0xC2 then Char.ofNat 0xFFFD :: utf8DecodeLenientF fuel rest
    else if b < 0xE0 then
      match rest with
      | b2 :: rest2 =>
        if isCont b2 then
          Char.ofNat ((b - 0xC0) * 64 + (b2 - 0x80)) :: utf8DecodeLenientF fuel rest2
        else Char.ofNat 0xFFFD :: utf8DecodeLenientF fuel rest
      | [] => [Char.ofNat 0xFFFD]
    else if b < 0xF0 then
      match rest with
      | b2 :: b3 :: rest2 =>
        if isCont b2 && isCont b3 &&
            !(b = 0xE0 && b2 < 0xA0) && !(b = 0xED && 0xA0 ≤ b2) then
          Char.ofNat ((b - 0xE0) * 4096 + (b2 - 0x80) * 64 + (b3 - 0x80)) ::
            utf8DecodeLenientF fuel rest2
        else Char.ofNat 0xFFFD :: utf8DecodeLenientF fuel rest
      | _ => [Char.ofNat 0xFFFD]
    else if b < 0xF5 then
      match rest with
      | b2 :: b3 :: b4 :: rest2 =>
        if isCont b2 && isCont b3 && isCont b4 &&
            !(b = 0xF0 && b2 < 0x90) && !(b = 0xF4 && 0x90 ≤ b2) then
          Char.ofNat ((b - 0xF0) * 262144 + (b2 - 0x80) * 4096 +
              (b3 - 0x80) * 64 + (b4 - 0x80)) :: utf8DecodeLenientF fuel rest2
        else Char.ofNat 0xFFFD :: utf8DecodeLenientF fuel rest
      | _ => [Char.ofNat 0xFFFD]
    else Char.ofNat 0xFFFD :: utf8DecodeLenientF fuel rest

def utf8DecodeLenient (l : List Nat) : List Char := utf8DecodeLenientF l.length l

/-- `application/x-www-form-urlencoded` decoding as performed by
`URLSearchParams`: `+` becomes a space, `%XX` with two hex digits
becomes a byte, a malformed `%` is kept literally (this decoder never
throws). -/
def formDecodeBytesF : Nat → List Char → List Nat
  | 0, _ => []
  | _, [] => []
  | fuel + 1, c :: rest =>
    if c = '+' then 0x20 :: formDecodeBytesF fuel rest
    else if c = '%' then
      match rest with
      | c1 :: c2 :: rest2 =>
        match hexPair? c1 c2 with
        | some b => b :: formDecodeBytesF fuel rest2
        | none => 0x25 :: formDecodeBytesF fuel rest
      | [c1] =>
        0x25 :: (if c1 = '+' then [0x20] else if c1 = '%' then [0x25] else charUtf8Bytes c1)
      | [] => [0x25]
    else charUtf8Bytes c ++ formDecodeBytesF fuel rest

def formDecodeBytes (l : List Char) : List Nat := formDecodeBytesF l.length l

def formDecode (l : List Char) : String := ⟨utf8DecodeLenient (formDecodeBytes l)⟩

def splitOnAmp : List Char → List (List Char)
  | [] => [[]]
  | c :: rest =>
    if c = '&' then [] :: splitOnAmp rest
    else
      match splitOnAmp rest with
      | p :: ps => (c :: p) :: ps
      | [] => [[c]]

/-- `URLSearchParams.get(name)`: split the query on `&`, split each
non-empty pair at the first `=`, decode key and value, return the first
value whose key equals `name`. -/
def searchParamsGet (query : List Char) (name : String) : Option String :=
  (splitOnAmp query).findSome? (fun pair =>
    if pair = [] then none
    else if formDecode (pair.takeWhile (fun c => !(c = '='))) = name then
      some (formDecode
        (match pair.dropWhile (fun c => !(c = '=')) with
         | _ :: v => v
         | [] => []))
    else none)

/-- Characters a URL scheme may contain after its first letter. -/
def isSchemeChar (c : Char) : Bool := c.isAlphanum || c = '+' || c = '-' || c = '.'

/-- Minimal model of `new URL(s)` for the link shapes relevant here:
`(protocol, query)`, where the protocol is the lower-cased scheme with
`:` and the query is everything after the first `?` (up to a `#`);
`none` models a thrown `TypeError`. -/
def urlParse (s : String) : Option (String × String) :=
  match s.data.dropWhile (fun c => !(c = ':')) with
  | ':' :: _ =>
    if (s.data.takeWhile (fun c => !(c = ':'))).headD ' ' |>.isAlpha then
      if (s.data.takeWhile (fun c => !(c = ':'))).all isSchemeChar then
        some (⟨(s.data.takeWhile (fun c => !(c = ':'))).map Char.toLower ++ [':']⟩,
          ⟨match s.data.dropWhile (fun c => !(c = '?')) with
           | _ :: q => q.takeWhile (fun c => !(c = '#'))
           | [] => []⟩)
      else none
    else none
  | _ => none

/-- Variant B `parseObsidianUrl`: `new URL`, protocol check, read the
(already percent-decoded) `vault` / `file` search parameters, then
percent-decode each a **second** time with `decodeURIComponent`; any
throw is caught by the surrounding `try` and yields `null`. -/
def parseObsidianUrlV2 (url : String) : Option ObsidianUrl :=
  match urlParse url with
  | none => none
  | some (protocol, query) =>
    if protocol = "obsidian:" then
      match searchParamsGet query.data "vault", searchParamsGet query.data "file" with
      | some vault, some file =>
        if vault = "" ∨ file = "" then none
        else
          match decodeURIComponentOpt vault, decodeURIComponentOpt file with
          | some v, some f => some { vault := v, file := f, originalUrl := url }
          | _, _ => none
      | _, _ => none
    else none

example : parseObsidianUrlV2 "obsidian://open?vault=V&file=Note.md"
    = some ⟨"V", "Note.md", "obsidian://open?vault=V&file=Note.md"⟩ := by decide
example : parseObsidianUrlV2 "obsidian://open?file=F&vault=V"
    = some ⟨"V", "F", "obsidian://open?file=F&vault=V"⟩ := by decide
example : parseObsidianUrlV2 "http://open?vault=V&file=F" = none := by decide

/-- C10: the `URL`-object parser percent-decodes each parameter twice:
`file=%2520` singly decodes to `%20` and then again to a single space;
`file=100%25` singly decodes to `100%`, whose second decode throws, is
caught, and the parse returns the `null` sentinel. -/
theorem parseObsidianUrlV2_double_decode :
    parseObsidianUrlV2 "obsidian://open?vault=V&file=%2520"
        = some ⟨"V", " ", "obsidian://open?vault=V&file=%2520"⟩ ∧
    parseObsidianUrlV2 "obsidian://open?vault=V&file=100%25" = none := by
  decide

/-! ### Claims C6 and C9 — parser totality and field non-emptiness -/

/-- Does `pat` occur as a contiguous substring of `l`? -/
def hasSub (pat : List Char) : List Char → Bool
  | [] => leadsWith pat []
  | c :: rest => leadsWith pat (c :: rest) || hasSub pat rest

/-- C6 counterexample: the claim says parsing fails whenever the scheme
does not match, but the manual `vault=` / `file=` fallback succeeds on
an input that does not contain the scheme at all. -/
theorem parseObsidianUrl_no_scheme_counterexample :
    parseObsidianUrl "vault=a&file=b" = some ⟨"a", "b"⟩ ∧
    hasSub "obsidian://".data ("vault=a&file=b").data = false := by
  decide

/-- C6 (amended): `parseObsidianUrl` is total (modelled as an
`Option`-valued function: `none` is the `null` sentinel and the catch
around `decodeURIComponent` is the inner `Option`), and it fails
exactly when the extraction cascade produces nothing or an empty
component; matching the scheme is *not* necessary for success, because
the manual fallback extracts `vault=` / `file=` pairs from
scheme-less input. -/
theorem parseObsidianUrl_failure_iff (u : String) :
    parseObsidianUrl u = none ↔
      (extractRaw u = none ∨
        ∃ v f, extractRaw u = some (v, f) ∧ (v = "" ∨ f = "")) := by
  unfold parseObsidianUrl
  cases he : extractRaw u with
  | none => simp
  | some vf =>
    obtain ⟨v, f⟩ := vf
    by_cases hvf : v = "" ∨ f = ""
    · simp only [hvf, if_true]
      simp only [true_iff]
      exact Or.inr ⟨v, f, rfl, hvf⟩
    · simp only [hvf, if_false]
      simp [hvf]
      exact not_or.mp hvf

theorem charUtf8Bytes_ne_nil (c : Char) : charUtf8Bytes c ≠ [] := by
  unfold charUtf8Bytes
  split_ifs <;> simp

theorem percentDecodeBytes_ne_nil {l : List Char} {bs : List Nat}
    (h : percentDecodeBytes l = some bs) (hl : l ≠ []) : bs ≠ [] := by
  rcases l with _ | ⟨c, rest⟩
  · exact absurd rfl hl
  · unfold percentDecodeBytes at h
    by_cases hc : c = '%'
    · rw [if_pos hc] at h
      rcases rest with _ | ⟨c1, rest1⟩
      · simp at h
      · rcases rest1 with _ | ⟨c2, rest2⟩
        · simp at h
        · dsimp only at h
          cases hhex : hexPair? c1 c2 with
          | none => rw [hhex] at h; simp at h
          | some b =>
            rw [hhex] at h
            simp only [Option.map_eq_some'] at h
            obtain ⟨bs2, _, hb⟩ := h
            subst hb
            simp
    · rw [if_neg hc] at h
      simp only [Option.map_eq_some'] at h
      obtain ⟨bs2, _, hb⟩ := h
      subst hb
      simp [charUtf8Bytes_ne_nil c]

theorem utf8Decode_ne_nil {bs : List Nat} {cs : List Char}
    (h : utf8Decode bs = some cs) (hbs : bs ≠ []) : cs ≠ [] := by
  rcases bs with _ | ⟨b, rest⟩
  · exact absurd rfl hbs
  · unfold utf8Decode utf8DecodeF at h
    simp only [List.length_cons] at h
    cases ho : utf8DecodeOne (b :: rest) with
    | none => rw [ho] at h; exact Option.noConfusion h
    | some p =>
      obtain ⟨c, rest2⟩ := p
      rw [ho] at h
      dsimp only at h
      simp only [Option.map_eq_some'] at h
      obtain ⟨l2, _, hb⟩ := h
      subst hb
      simp

theorem tryDecodeURIComponent_ne_empty (s : String) (hs : s ≠ "") :
    tryDecodeURIComponent s ≠ "" := by
  have hd : s.data ≠ [] := by
    intro hnil
    apply hs
    have hmk : s = ⟨s.data⟩ := rfl
    rw [hmk, hnil]
  unfold tryDecodeURIComponent
  cases hdec : decodeURIComponentOpt s with
  | none => simpa using hs
  | some t =>
    have ht : t ≠ "" := by
      unfold decodeURIComponentOpt at hdec
      cases hpb : percentDecodeBytes s.data with
      | none => rw [hpb] at hdec; exact absurd hdec (by simp)
      | some bs =>
        rw [hpb] at hdec
        dsimp only at hdec
        cases hud : utf8Decode bs with
        | none => rw [hud] at hdec; exact absurd hdec (by simp)
        | some cs =>
          rw [hud] at hdec
          simp only [Option.map_some'] at hdec
          have hbs : bs ≠ [] := percentDecodeBytes_ne_nil hpb hd
          have hcs : cs ≠ [] := utf8Decode_ne_nil hud hbs
          intro ht0
          apply hcs
          have h2 := Option.some.inj hdec
          rw [ht0] at h2
          simpa using congrArg String.data h2
    simpa using ht

/-- C9 counterexample: the non-emptiness guard runs *before*
normalisation, so a link whose file component is exactly `.md` parses
to a `ParsedLink` with an **empty** `file` field. -/
theorem parseObsidianUrl_empty_file_counterexample :
    parseObsidianUrl "obsidian://open?vault=V&file=.md" = some ⟨"V", ""⟩ := by
  decide

/-- C9 (amended): every `ParsedLink` returned by `parseObsidianUrl`
has a non-empty `vault` field (the guard checks the raw components and
component decoding preserves non-emptiness); the `file` field is the
normalisation of a non-empty raw component but can itself be empty
(e.g. raw component `.md`). -/
theorem parseObsidianUrl_vault_nonempty (u : String) (p : ParsedLink)
    (h : parseObsidianUrl u = some p) : p.vault ≠ "" := by
  unfold parseObsidianUrl at h
  cases he : extractRaw u with
  | none => rw [he] at h; exact absurd h (by simp)
  | some vf =>
    obtain ⟨v, f⟩ := vf
    rw [he] at h
    dsimp only at h
    by_cases hvf : v = "" ∨ f = ""
    · rw [if_pos hvf] at h; exact absurd h (by simp)
    · rw [if_neg hvf] at h
      have hv : v ≠ "" := fun he2 => hvf (Or.inl he2)
      have hp := Option.some.inj h
      rw [← hp]
      exact tryDecodeURIComponent_ne_empty v hv

theorem parseObsidianUrl_vault_nonempty_witness :
    (⟨"MyVault", "Note"⟩ : ParsedLink).vault ≠ "" :=
  parseObsidianUrl_vault_nonempty "obsidian://open?vault=MyVault&file=Note"
    ⟨"MyVault", "Note"⟩ (by decide)

/-! ### Claim C3 — parsing of well-formed links

The amended claim is proved for vault and file components drawn from
the ASCII alphanumeric characters; the needed per-character facts are
decided over the explicit character list. -/

def asciiAlnum : List Char :=
  "ABCDEFGHIJKLMNOPQRSTUVWXYZabcdefghijklmnopqrstuvwxyz0123456789".data

/-- Characters that `decodeURIComponent` maps to themselves and that
occur in the link shapes considered here. -/
def urlKeepChars : List Char := asciiAlnum ++ [':', '/', '?', '&', '=']

theorem asciiAlnum_facts : ∀ c ∈ asciiAlnum,
    c.toNat < 128 ∧ Char.ofNat c.toNat = c ∧ c ≠ '%' ∧ c ≠ '&' ∧ c ≠ '.' ∧
    c ≠ '?' ∧ isSep c = false ∧ isWs c = false := by decide

theorem urlKeepChars_facts : ∀ c ∈ urlKeepChars,
    c.toNat < 128 ∧ Char.ofNat c.toNat = c ∧ c ≠ '%' := by decide

theorem asciiAlnum_subset_keep : ∀ c ∈ asciiAlnum, c ∈ urlKeepChars := by decide

theorem charUtf8Bytes_ascii (c : Char) (h : c.toNat < 128) :
    charUtf8Bytes c = [c.toNat] := by
  unfold charUtf8Bytes
  rw [if_pos h]

theorem percentDecodeBytes_map (l : List Char)
    (h : ∀ c ∈ l, c ≠ '%' ∧ c.toNat < 128) :
    percentDecodeBytes l = some (l.map Char.toNat) := by
  induction l with
  | nil => rfl
  | cons c rest ih =>
    obtain ⟨hc1, hc2⟩ := h c (List.mem_cons_self c rest)
    unfold percentDecodeBytes
    rw [if_neg hc1, ih (fun d hd => h d (List.mem_cons_of_mem _ hd))]
    simp [charUtf8Bytes_ascii c hc2]

theorem utf8DecodeF_map (l : List Char)
    (h : ∀ c ∈ l, c.toNat < 128 ∧ Char.ofNat c.toNat = c) :
    ∀ fuel, l.length ≤ fuel → utf8DecodeF fuel (l.map Char.toNat) = some l := by
  induction l with
  | nil =>
    intro fuel _
    cases fuel <;> rfl
  | cons c rest ih =>
    intro fuel hf
    cases fuel with
    | zero => simp at hf
    | succ f =>
      obtain ⟨hc1, hc2⟩ := h c (List.mem_cons_self c rest)
      have hone : utf8DecodeOne (c.toNat :: rest.map Char.toNat)
          = some (Char.ofNat c.toNat, rest.map Char.toNat) := by
        unfold utf8DecodeOne
        dsimp only
        rw [if_pos hc1]
      have hrec : utf8DecodeF f (rest.map Char.toNat) = some rest :=
        ih (fun d hd => h d (List.mem_cons_of_mem _ hd)) f
          (by simpa using Nat.succ_le_succ_iff.mp hf)
      rw [List.map_cons]
      unfold utf8DecodeF
      rw [hone]
      dsimp only
      rw [hrec]
      simp [hc2]

theorem tryDecodeURIComponent_id (s : String)
    (h : ∀ c ∈ s.data, c ∈ urlKeepChars) :
    tryDecodeURIComponent s = s := by
  have h1 : percentDecodeBytes s.data = some (s.data.map Char.toNat) :=
    percentDecodeBytes_map _ (fun c hc =>
      ⟨(urlKeepChars_facts c (h c hc)).2.2, (urlKeepChars_facts c (h c hc)).1⟩)
  have h2 : utf8Decode (s.data.map Char.toNat) = some s.data := by
    unfold utf8Decode
    rw [List.length_map]
    exact utf8DecodeF_map _ (fun c hc =>
      ⟨(urlKeepChars_facts c (h c hc)).1, (urlKeepChars_facts c (h c hc)).2.1⟩)
      s.data.length le_rfl
  unfold tryDecodeURIComponent decodeURIComponentOpt
  rw [h1]
  dsimp only
  rw [h2]
  rfl

theorem dropLead_append (pre rest : List Char) :
    dropLead pre (pre ++ rest) = some rest := by
  induction pre with
  | nil => rfl
  | cons p ps ih => simp [dropLead, ih]

theorem dropLead_eq {pre l r : List Char} (h : dropLead pre l = some r) :
    l = pre ++ r := by
  induction pre generalizing l with
  | nil => simpa [dropLead] using h.symm.symm
  | cons p ps ih =>
    cases l with
    | nil => exact absurd h (by simp [dropLead])
    | cons c cs =>
      unfold dropLead at h
      by_cases hpc : p = c
      · rw [if_pos hpc] at h
        rw [List.cons_append, ← hpc, ih h]
      · rw [if_neg hpc] at h
        exact Option.noConfusion h

theorem tryAll_eq_of_match {α : Type} (m : List Char → Option α) (l : List Char)
    (r : α) (h : m l = some r) : tryAll m l = some r := by
  cases l <;> simp [tryAll, h]

theorem tryAll_eq_none {α : Type} (m : List Char → Option α) (l : List Char)
    (h : ∀ l', l' <:+ l → m l' = none) : tryAll m l = none := by
  induction l with
  | nil => simpa [tryAll] using h [] (by simp)
  | cons c cs ih =>
    unfold tryAll
    rw [h (c :: cs) (by simp)]
    exact ih (fun l' hl' => h l' (hl'.trans (List.suffix_cons c cs)))

theorem takeWhile_append_middle (p : Char → Bool) (l1 : List Char)
    (h1 : ∀ c ∈ l1, p c = true) (c0 : Char) (h0 : p c0 = false) (l2 : List Char) :
    (l1 ++ c0 :: l2).takeWhile p = l1 ∧ (l1 ++ c0 :: l2).dropWhile p = c0 :: l2 := by
  induction l1 with
  | nil => simp [List.takeWhile, List.dropWhile, h0]
  | cons c cs ih =>
    have hc := h1 c (List.mem_cons_self c cs)
    have ih2 := ih (fun d hd => h1 d (List.mem_cons_of_mem _ hd))
    simp only [List.cons_append, List.takeWhile_cons, List.dropWhile_cons, hc]
    simp [ih2.1, ih2.2]

theorem leadsWith_subset {pre l : List Char} (h : leadsWith pre l = true) :
    ∀ x ∈ pre, x ∈ l := by
  induction pre generalizing l with
  | nil => simp
  | cons p ps ih =>
    cases l with
    | nil => simp [leadsWith] at h
    | cons c cs =>
      simp only [leadsWith, Bool.and_eq_true, decide_eq_true_eq] at h
      intro x hx
      rcases List.mem_cons.mp hx with hx | hx
      · subst hx; rw [h.1]; exact List.mem_cons_self c cs
      · exact List.mem_cons_of_mem _ (ih h.2 x hx)

theorem trailsWith_md_false {l : List Char} (h : '.' ∉ l) :
    trailsWith ['.', 'm', 'd'] l = false := by
  by_contra hc
  have ht : trailsWith ['.', 'm', 'd'] l = true := by
    cases h2 : trailsWith ['.', 'm', 'd'] l
    · exact absurd h2 hc
    · rfl
  unfold trailsWith at ht
  have := leadsWith_subset ht '.' (by decide)
  exact h (List.mem_reverse.mp this)

theorem stripMd_id {l : List Char} (h : '.' ∉ l) : stripMd l = l := by
  unfold stripMd
  rw [trailsWith_md_false h]
  simp

theorem collapseRuns_id_of_none {p : Char → Bool} {rep : Char} {l : List Char}
    (h : ∀ c ∈ l, p c = false) : collapseRuns p rep l = l := by
  induction l with
  | nil => rfl
  | cons c cs ih =>
    unfold collapseRuns
    rw [h c (List.mem_cons_self c cs)]
    simp only [Bool.false_eq_true, if_false]
    rw [ih (fun d hd => h d (List.mem_cons_of_mem _ hd))]

theorem pct20ToSpace_id {l : List Char} (h : '%' ∉ l) : pct20ToSpace l = l := by
  induction l with
  | nil => rfl
  | cons c cs ih =>
    unfold pct20ToSpace
    rw [if_neg (fun he : c = '%' => h (he ▸ List.mem_cons_self c cs))]
    rw [ih (fun hm => h (List.mem_cons_of_mem _ hm))]

/-- `normalizeFile` is the identity on ASCII alphanumeric strings. -/
theorem normalizeFile_id_of_alnum (F : String)
    (h : ∀ c ∈ F.data, c ∈ asciiAlnum) : normalizeFile F = F := by
  have hdot : '.' ∉ F.data := fun hm =>
    (asciiAlnum_facts '.' (h '.' hm)).2.2.2.2.1 rfl
  have hsep : ∀ c ∈ F.data, isSep c = false := fun c hc =>
    (asciiAlnum_facts c (h c hc)).2.2.2.2.2.2.1
  have hws : ∀ c ∈ F.data, isWs c = false := fun c hc =>
    (asciiAlnum_facts c (h c hc)).2.2.2.2.2.2.2
  have hpct : '%' ∉ F.data := fun hm =>
    (asciiAlnum_facts '%' (h '%' hm)).2.2.1 rfl
  unfold normalizeFile
  rw [stripMd_id hdot]
  unfold normSeps collapseWs
  rw [collapseRuns_id_of_none hsep, collapseRuns_id_of_none hws, pct20ToSpace_id hpct]

theorem matchP1At_pos (V F : List Char) (hV : V ≠ []) (hF : F ≠ [])
    (hVc : ∀ c ∈ V, c ≠ '&') (hFdot : '.' ∉ F) :
    matchP1At ("obsidian://open?vault=".data ++ (V ++ '&' :: ("file=".data ++ F)))
      = some (V, F) := by
  have hsp := takeWhile_append_middle (fun c => !(c = '&')) V
      (fun c hc => by simp [hVc c hc]) '&' (by simp) ("file=".data ++ F)
  have hdl2 : dropLead "&file=".data ('&' :: ("file=".data ++ F)) = some F := by
    have h1 : ('&' :: ("file=".data ++ F)) = "&file=".data ++ F := rfl
    rw [h1, dropLead_append]
  have hlz : lazyTailMd F = some F := by
    unfold lazyTailMd
    rw [if_neg hF, if_neg]
    simp [trailsWith_md_false hFdot]
  unfold matchP1At
  rw [dropLead_append]
  dsimp only
  rw [hsp.1, hsp.2, if_neg hV, hdl2]
  dsimp only
  rw [hlz]
  rfl

theorem parse_vault_first (V F : String) (hV : V ≠ "") (hF : F ≠ "")
    (hVc : ∀ c ∈ V.data, c ∈ asciiAlnum) (hFc : ∀ c ∈ F.data, c ∈ asciiAlnum) :
    parseObsidianUrl ("obsidian://open?vault=" ++ V ++ "&file=" ++ F)
      = some ⟨V, F⟩ := by
  have hVd : V.data ≠ [] := by
    intro hnil
    exact hV (by rw [show V = ⟨V.data⟩ from rfl, hnil])
  have hFd : F.data ≠ [] := by
    intro hnil
    exact hF (by rw [show F = ⟨F.data⟩ from rfl, hnil])
  have hdata : ("obsidian://open?vault=" ++ V ++ "&file=" ++ F).data
      = "obsidian://open?vault=".data ++ (V.data ++ '&' :: ("file=".data ++ F.data)) := by
    simp only [String.data_append, List.append_assoc]
    rfl
  have hkeep : ∀ c ∈ ("obsidian://open?vault=" ++ V ++ "&file=" ++ F).data,
      c ∈ urlKeepChars := by
    rw [hdata]
    intro c hc
    rcases List.mem_append.mp hc with hc | hc
    · exact (by decide : ∀ c ∈ ("obsidian://open?vault=".data : List Char),
        c ∈ urlKeepChars) c hc
    · rcases List.mem_append.mp hc with hc | hc
      · exact asciiAlnum_subset_keep c (hVc c hc)
      · rcases List.mem_cons.mp hc with hc | hc
        · subst hc; decide
        · rcases List.mem_append.mp hc with hc | hc
          · exact (by decide : ∀ c ∈ ("file=".data : List Char),
              c ∈ urlKeepChars) c hc
          · exact asciiAlnum_subset_keep c (hFc c hc)
  have hm1 : matchP1At ("obsidian://open?vault=" ++ V ++ "&file=" ++ F).data
      = some (V.data, F.data) := by
    rw [hdata]
    exact matchP1At_pos V.data F.data hVd hFd
      (fun c hc => (asciiAlnum_facts c (hVc c hc)).2.2.2.1)
      (fun hm => (asciiAlnum_facts '.' (hFc '.' hm)).2.2.2.2.1 rfl)
  have hex : extractRaw ("obsidian://open?vault=" ++ V ++ "&file=" ++ F)
      = some (V, F) := by
    unfold extractRaw
    rw [tryDecodeURIComponent_id _ hkeep]
    unfold matchPatterns
    rw [tryAll_eq_of_match _ _ _ hm1]
    rfl
  unfold parseObsidianUrl
  rw [hex]
  dsimp only
  rw [if_neg (by simp [hV, hF])]
  rw [tryDecodeURIComponent_id V
    (fun c hc => asciiAlnum_subset_keep c (hVc c hc))]
  rw [tryDecodeURIComponent_id F
    (fun c hc => asciiAlnum_subset_keep c (hFc c hc))]
  rw [normalizeFile_id_of_alnum F hFc]

theorem single_occ_eq (c : Char) (a1 b1 a2 b2 : List Char)
    (h : a1 ++ c :: b1 = a2 ++ c :: b2) (h1 : c ∉ a1) (h2 : c ∉ a2) :
    a1 = a2 ∧ b1 = b2 := by
  induction a1 generalizing a2 with
  | nil =>
    cases a2 with
    | nil => simpa using h
    | cons d a2' =>
      simp only [List.nil_append, List.cons_append, List.cons.injEq] at h
      exact absurd (h.1 ▸ List.mem_cons_self d a2') h2
  | cons d a1' ih =>
    cases a2 with
    | nil =>
      simp only [List.cons_append, List.nil_append, List.cons.injEq] at h
      exact absurd (h.1.symm ▸ List.mem_cons_self d a1') h1
    | cons e a2' =>
      simp only [List.cons_append, List.cons.injEq] at h
      have hrec := ih a2' h.2 (fun hm => h1 (List.mem_cons_of_mem _ hm))
        (fun hm => h2 (List.mem_cons_of_mem _ hm))
      exact ⟨by rw [h.1, hrec.1], hrec.2⟩

theorem suffix_lit_position (x A pre r R : List Char) (c : Char)
    (hx : (x ++ A) ++ c :: (pre ++ r) = A ++ c :: R)
    (hA : c ∉ A)
    (hcount : List.count c (A ++ c :: R) = 1) :
    x = [] ∧ pre ++ r = R := by
  have h1 : List.count c ((x ++ A) ++ c :: (pre ++ r)) = 1 := by rw [hx]; exact hcount
  simp only [List.count_append, List.count_cons_self] at h1
  have hcx : c ∉ x := by
    intro hm
    have := List.count_pos_iff.mpr hm
    omega
  have hone := single_occ_eq c (x ++ A) (pre ++ r) A R hx
    (fun hm => by
      rcases List.mem_append.mp hm with hm | hm
      · exact hcx hm
      · exact hA hm)
    hA
  have hx0 : x = [] := by
    have hlen := congrArg List.length hone.1
    simp only [List.length_append] at hlen
    exact List.eq_nil_of_length_eq_zero (by omega)
  exact ⟨hx0, hone.2⟩

theorem dropLead_cons_ne {p c : Char} {ps cs : List Char} (h : p ≠ c) :
    dropLead (p :: ps) (c :: cs) = none := by
  unfold dropLead
  rw [if_neg h]

theorem p4Alt1Scan_pos (V : List Char) (hV : V ≠ []) (hVc : ∀ c ∈ V, c ≠ '&') :
    ∀ g : List Char, g ≠ [] → (∀ c ∈ g, c ≠ '.' ∧ c ≠ '&') →
      ∀ acc, p4Alt1Scan acc (g ++ '&' :: ("vault=".data ++ V)) = some (acc ++ g, V) := by
  intro g
  induction g with
  | nil => intro hg; exact absurd rfl hg
  | cons c g' ih =>
    intro _ hgc acc
    rw [List.cons_append]
    unfold p4Alt1Scan
    cases hg' : g' with
    | nil =>
      subst hg'
      simp only [List.nil_append]
      have hcont : p4Alt1Cont ('&' :: ("vault=".data ++ V)) = some V := by
        unfold p4Alt1Cont
        have h1 : dropLead ".md&vault=".data ('&' :: ("vault=".data ++ V)) = none := rfl
        have h2 : dropLead "&vault=".data ('&' :: ("vault=".data ++ V)) = some V := by
          have he : ('&' :: ("vault=".data ++ V)) = "&vault=".data ++ V := rfl
          rw [he, dropLead_append]
        rw [h1, h2]
        dsimp only
        rw [if_pos]
        constructor
        · exact hV
        · exact List.all_eq_true.mpr (fun c hc => by simp [hVc c hc])
      rw [hcont]
    | cons d g'' =>
      subst hg'
      have hd := hgc d (List.mem_cons_of_mem _ (List.mem_cons_self d g''))
      have hcont : p4Alt1Cont ((d :: g'') ++ '&' :: ("vault=".data ++ V)) = none := by
        rw [List.cons_append]
        unfold p4Alt1Cont
        have h1 : dropLead ".md&vault=".data
            (d :: (g'' ++ '&' :: ("vault=".data ++ V))) = none :=
          dropLead_cons_ne (Ne.symm hd.1)
        have h2 : dropLead "&vault=".data
            (d :: (g'' ++ '&' :: ("vault=".data ++ V))) = none :=
          dropLead_cons_ne (Ne.symm hd.2)
        rw [h1, h2]
      rw [hcont]
      dsimp only
      have hrec := ih (by simp) (fun e he => hgc e (List.mem_cons_of_mem _ he)) (acc ++ [c])
      rw [hrec]
      simp

theorem count_q_fileFirst (F V : List Char) (hF : '?' ∉ F) (hV : '?' ∉ V) :
    List.count '?' ("obsidian://open".data ++ '?' ::
      ("file=".data ++ (F ++ '&' :: ("vault=".data ++ V)))) = 1 := by
  simp only [List.count_append, List.count_cons]
  rw [List.count_eq_zero.mpr hF, List.count_eq_zero.mpr hV]
  decide

theorem dropLead_vaultLit_none (F V : List Char) (hFq : '?' ∉ F) (hVq : '?' ∉ V) :
    ∀ l', l' <:+ ("obsidian://open?file=".data ++ (F ++ '&' :: ("vault=".data ++ V))) →
      dropLead "obsidian://open?vault=".data l' = none := by
  intro l' hsuf
  cases hdl : dropLead "obsidian://open?vault=".data l' with
  | none => rfl
  | some r =>
    exfalso
    have hl' := dropLead_eq hdl
    obtain ⟨x, hx⟩ := hsuf
    rw [hl'] at hx
    have hx2 : (x ++ "obsidian://open".data) ++ '?' :: ("vault=".data ++ r)
        = "obsidian://open".data ++ '?' ::
            ("file=".data ++ (F ++ '&' :: ("vault=".data ++ V))) := by
      rw [List.append_assoc]
      exact hx
    have hpos := suffix_lit_position x "obsidian://open".data "vault=".data r
      ("file=".data ++ (F ++ '&' :: ("vault=".data ++ V))) '?' hx2 (by decide)
      (count_q_fileFirst F V hFq hVq)
    have h2 := hpos.2
    rw [show ("vault=".data ++ r : List Char)
        = 'v' :: ("ault=".data ++ r) from rfl] at h2
    rw [show ("file=".data ++ (F ++ '&' :: ("vault=".data ++ V)) : List Char)
        = 'f' :: ("ile=".data ++ (F ++ '&' :: ("vault=".data ++ V))) from rfl] at h2
    have h3 := (List.cons.injEq _ _ _ _ ▸ h2)
    exact absurd h3.1 (by decide)

theorem matchP1At_none_of_noLit {l' : List Char}
    (h : dropLead "obsidian://open?vault=".data l' = none) : matchP1At l' = none := by
  unfold matchP1At
  rw [h]

theorem matchP2At_none_of_noLit {l' : List Char}
    (h : dropLead "obsidian://open?vault=".data l' = none) : matchP2At l' = none := by
  unfold matchP2At
  rw [h]

theorem matchP3At_none_fileFirst (F V : List Char) (hFq : '?' ∉ F) (hVq : '?' ∉ V) :
    ∀ l', l' <:+ ("obsidian://open?file=".data ++ (F ++ '&' :: ("vault=".data ++ V))) →
      matchP3At l' = none := by
  intro l' hsuf
  unfold matchP3At
  cases hdl : dropLead "obsidian://open?".data l' with
  | none => rfl
  | some r0 =>
    have hl' := dropLead_eq hdl
    obtain ⟨x, hx⟩ := hsuf
    rw [hl'] at hx
    have hx2 : (x ++ "obsidian://open".data) ++ '?' :: ([] ++ r0)
        = "obsidian://open".data ++ '?' ::
            ("file=".data ++ (F ++ '&' :: ("vault=".data ++ V))) := by
      rw [List.append_assoc]
      exact hx
    have hpos := suffix_lit_position x "obsidian://open".data [] r0
      ("file=".data ++ (F ++ '&' :: ("vault=".data ++ V))) '?' hx2 (by decide)
      (count_q_fileFirst F V hFq hVq)
    have hr0 : r0 = "file=".data ++ (F ++ '&' :: ("vault=".data ++ V)) := by
      simpa using hpos.2
    dsimp only
    rw [hr0]
    have h1 : ("file=".data ++ (F ++ '&' :: ("vault=".data ++ V))).dropWhile isWs
        = "file=".data ++ (F ++ '&' :: ("vault=".data ++ V)) := rfl
    rw [h1]
    have h2 : dropLead ['v', 'a', 'u', 'l', 't', '=']
        ("file=".data ++ (F ++ '&' :: ("vault=".data ++ V))) = none := by
      rw [show ("file=".data ++ (F ++ '&' :: ("vault=".data ++ V)) : List Char)
          = 'f' :: ("ile=".data ++ (F ++ '&' :: ("vault=".data ++ V))) from rfl]
      exact dropLead_cons_ne (by decide)
    rw [h2]

theorem matchP4At_pos_fileFirst (F V : List Char) (hF : F ≠ []) (hV : V ≠ [])
    (hFc : ∀ c ∈ F, c ≠ '.' ∧ c ≠ '&') (hVc : ∀ c ∈ V, c ≠ '&') :
    matchP4At ("obsidian://open?file=".data ++ (F ++ '&' :: ("vault=".data ++ V)))
      = some (Sum.inl (F, V)) := by
  unfold matchP4At
  have h0 : dropLead "obsidian://open?".data
      ("obsidian://open?file=".data ++ (F ++ '&' :: ("vault=".data ++ V)))
      = some ("file=".data ++ (F ++ '&' :: ("vault=".data ++ V))) := by
    have he : ("obsidian://open?file=".data ++ (F ++ '&' :: ("vault=".data ++ V)) : List Char)
        = "obsidian://open?".data ++ ("file=".data ++ (F ++ '&' :: ("vault=".data ++ V))) := rfl
    rw [he, dropLead_append]
  rw [h0]
  dsimp only
  rw [dropLead_append]
  dsimp only
  rw [p4Alt1Scan_pos V hV hVc F hF hFc []]
  simp

theorem parse_file_first (V F : String) (hV : V ≠ "") (hF : F ≠ "")
    (hVc : ∀ c ∈ V.data, c ∈ asciiAlnum) (hFc : ∀ c ∈ F.data, c ∈ asciiAlnum) :
    parseObsidianUrl ("obsidian://open?file=" ++ F ++ "&vault=" ++ V)
      = some ⟨F, V⟩ := by
  have hVd : V.data ≠ [] := by
    intro hnil
    exact hV (by rw [show V = ⟨V.data⟩ from rfl, hnil])
  have hFd : F.data ≠ [] := by
    intro hnil
    exact hF (by rw [show F = ⟨F.data⟩ from rfl, hnil])
  have hVq : '?' ∉ V.data := fun hm =>
    (asciiAlnum_facts '?' (hVc '?' hm)).2.2.2.2.2.1 rfl
  have hFq : '?' ∉ F.data := fun hm =>
    (asciiAlnum_facts '?' (hFc '?' hm)).2.2.2.2.2.1 rfl
  have hdata : ("obsidian://open?file=" ++ F ++ "&vault=" ++ V).data
      = "obsidian://open?file=".data ++ (F.data ++ '&' :: ("vault=".data ++ V.data)) := by
    simp only [String.data_append, List.append_assoc]
    rfl
  have hkeep : ∀ c ∈ ("obsidian://open?file=" ++ F ++ "&vault=" ++ V).data,
      c ∈ urlKeepChars := by
    rw [hdata]
    intro c hc
    rcases List.mem_append.mp hc with hc | hc
    · exact (by decide : ∀ c ∈ ("obsidian://open?file=".data : List Char),
        c ∈ urlKeepChars) c hc
    · rcases List.mem_append.mp hc with hc | hc
      · exact asciiAlnum_subset_keep c (hFc c hc)
      · rcases List.mem_cons.mp hc with hc | hc
        · subst hc; decide
        · rcases List.mem_append.mp hc with hc | hc
          · exact (by decide : ∀ c ∈ ("vault=".data : List Char),
              c ∈ urlKeepChars) c hc
          · exact asciiAlnum_subset_keep c (hVc c hc)
  have hex : extractRaw ("obsidian://open?file=" ++ F ++ "&vault=" ++ V)
      = some (F, V) := by
    unfold extractRaw
    rw [tryDecodeURIComponent_id _ hkeep]
    unfold matchPatterns
    rw [hdata]
    rw [tryAll_eq_none matchP1At _ (fun l' hl' =>
      matchP1At_none_of_noLit (dropLead_vaultLit_none F.data V.data hFq hVq l' hl'))]
    rw [tryAll_eq_none matchP2At _ (fun l' hl' =>
      matchP2At_none_of_noLit (dropLead_vaultLit_none F.data V.data hFq hVq l' hl'))]
    rw [tryAll_eq_none matchP3At _
      (matchP3At_none_fileFirst F.data V.data hFq hVq)]
    rw [tryAll_eq_of_match _ _ _ (matchP4At_pos_fileFirst F.data V.data hFd hVd
      (fun c hc => ⟨(asciiAlnum_facts c (hFc c hc)).2.2.2.2.1,
        (asciiAlnum_facts c (hFc c hc)).2.2.2.1⟩)
      (fun c hc => (asciiAlnum_facts c (hVc c hc)).2.2.2.1))]
    rfl
  unfold parseObsidianUrl
  rw [hex]
  dsimp only
  rw [if_neg (by simp [hV, hF])]
  rw [tryDecodeURIComponent_id F
    (fun c hc => asciiAlnum_subset_keep c (hFc c hc))]
  rw [tryDecodeURIComponent_id V
    (fun c hc => asciiAlnum_subset_keep c (hVc c hc))]
  rw [normalizeFile_id_of_alnum V hVc]

/-- C3 counterexample: for the file-first parameter order the regex
cascade falls through to pattern 4, whose `match[3] !== undefined`
check reads the file-first captures from slots 1/2 and assigns them
**swapped**: the vault field receives the file value and vice versa. -/
theorem parseObsidianUrl_param_order_counterexample :
    parseObsidianUrl "obsidian://open?file=Note&vault=MyVault"
        = some ⟨"Note", "MyVault"⟩ ∧
    parseObsidianUrl "obsidian://open?file=Note&vault=MyVault"
        ≠ some ⟨"MyVault", "Note"⟩ := by
  decide

/-- C3 (amended): for non-empty ASCII alphanumeric components `V` and
`F`, `parse` on `obsidian://open?vault=V&file=F` returns
`{vault := V, file := normalize F}` (and `normalize F = F` for such
`F`); but for the file-first order `obsidian://open?file=F&vault=V`
the parser returns the components **swapped** — `{vault := F,
file := V}` — instead of the claimed order-independent result. -/
theorem parseObsidianUrl_wellformed (V F : String) (hV : V ≠ "") (hF : F ≠ "")
    (hVc : ∀ c ∈ V.data, c ∈ asciiAlnum) (hFc : ∀ c ∈ F.data, c ∈ asciiAlnum) :
    parseObsidianUrl ("obsidian://open?vault=" ++ V ++ "&file=" ++ F)
        = some ⟨V, F⟩ ∧
    parseObsidianUrl ("obsidian://open?file=" ++ F ++ "&vault=" ++ V)
        = some ⟨F, V⟩ :=
  ⟨parse_vault_first V F hV hF hVc hFc, parse_file_first V F hV hF hVc hFc⟩

theorem parseObsidianUrl_wellformed_witness :
    parseObsidianUrl ("obsidian://open?vault=" ++ "MyVault" ++ "&file=" ++ "Note")
        = some ⟨"MyVault", "Note"⟩ ∧
    parseObsidianUrl ("obsidian://open?file=" ++ "Note" ++ "&vault=" ++ "MyVault")
        = some ⟨"Note", "MyVault"⟩ :=
  parseObsidianUrl_wellformed "MyVault" "Note" (by decide) (by decide)
    (by decide) (by decide)

/-! ### Claim C8 — idempotence of file normalisation -/

/-- C8 counterexample: `normalize` strips only one trailing `.md`, and
replaces `%20` by a space *after* collapsing whitespace, so applying it
twice can differ from applying it once. -/
theorem normalizeFile_not_idempotent :
    normalizeFile (normalizeFile "a.md.md") ≠ normalizeFile "a.md.md" ∧
    normalizeFile (normalizeFile "a%20 b") ≠ normalizeFile "a%20 b" := by
  decide

theorem mem_collapseRuns (p : Char → Bool) (rep : Char) (l : List Char) :
    ∀ x ∈ collapseRuns p rep l, (x ∈ l ∧ p x = false) ∨ x = rep := by
  induction l with
  | nil => simp [collapseRuns]
  | cons c cs ih =>
    intro x hx
    unfold collapseRuns at hx
    by_cases hc : p c = true
    · rw [if_pos hc] at hx
      cases cs with
      | nil =>
        right
        simpa using hx
      | cons d ds =>
        dsimp only at hx
        by_cases hd : p d = true
        · rw [if_pos hd] at hx
          rcases ih x hx with ⟨h1, h2⟩ | h1
          · exact Or.inl ⟨List.mem_cons_of_mem _ h1, h2⟩
          · exact Or.inr h1
        · rw [if_neg hd] at hx
          rcases List.mem_cons.mp hx with h1 | h1
          · exact Or.inr h1
          · rcases ih x h1 with ⟨h2, h3⟩ | h2
            · exact Or.inl ⟨List.mem_cons_of_mem _ h2, h3⟩
            · exact Or.inr h2
    · rw [if_neg hc] at hx
      rcases List.mem_cons.mp hx with h1 | h1
      · subst h1
        exact Or.inl ⟨List.mem_cons_self x cs, by simpa using hc⟩
      · rcases ih x h1 with ⟨h2, h3⟩ | h2
        · exact Or.inl ⟨List.mem_cons_of_mem _ h2, h3⟩
        · exact Or.inr h2

theorem collapseRuns_head_pos (p : Char → Bool) (rep : Char) (d : Char)
    (ds : List Char) (hd : p d = true) :
    ∃ t, collapseRuns p rep (d :: ds) = rep :: t := by
  induction ds generalizing d with
  | nil => exact ⟨[], by simp [collapseRuns, hd]⟩
  | cons e es ih =>
    unfold collapseRuns
    rw [if_pos hd]
    dsimp only
    by_cases he : p e = true
    · rw [if_pos he]
      exact ih e he
    · rw [if_neg he]
      exact ⟨_, rfl⟩

theorem collapseRuns_head_neg (p : Char → Bool) (rep : Char) (d : Char)
    (ds : List Char) (hd : p d = false) :
    ∃ t, collapseRuns p rep (d :: ds) = d :: t := by
  unfold collapseRuns
  rw [if_neg (by simp [hd])]
  exact ⟨_, rfl⟩

theorem collapseRuns_chain (p : Char → Bool) (rep : Char) (l : List Char) :
    List.Chain' (fun a b => ¬(p a = true ∧ p b = true)) (collapseRuns p rep l) := by
  induction l with
  | nil => simp [collapseRuns]
  | cons c cs ih =>
    unfold collapseRuns
    by_cases hc : p c = true
    · rw [if_pos hc]
      cases cs with
      | nil => simp
      | cons d ds =>
        dsimp only
        by_cases hd : p d = true
        · rw [if_pos hd]
          exact ih
        · rw [if_neg hd]
          obtain ⟨t, ht⟩ := collapseRuns_head_neg p rep d ds (by simpa using hd)
          rw [ht]
          rw [List.chain'_cons]
          constructor
          · intro hand
            exact hd hand.2
          · rw [← ht]
            exact ih
    · rw [if_neg hc]
      rw [List.chain'_cons']
      constructor
      · intro b _ hand
        exact hc hand.1
      · exact ih

theorem collapseRuns_id_of_good (p : Char → Bool) (rep : Char) (l : List Char)
    (hmem : ∀ c ∈ l, p c = true → c = rep)
    (hch : List.Chain' (fun a b => ¬(p a = true ∧ p b = true)) l) :
    collapseRuns p rep l = l := by
  induction l with
  | nil => rfl
  | cons c cs ih =>
    unfold collapseRuns
    by_cases hc : p c = true
    · rw [if_pos hc]
      have hcrep := hmem c (List.mem_cons_self c cs) hc
      cases cs with
      | nil => rw [hcrep]
      | cons d ds =>
        dsimp only
        have hd : p d = false := by
          have hR := (List.chain'_cons.mp hch).1
          by_contra hdd
          exact hR ⟨hc, by simpa using hdd⟩
        rw [if_neg (by simp [hd])]
        rw [ih (fun e he hp => hmem e (List.mem_cons_of_mem _ he) hp)
          (List.chain'_cons.mp hch).2, hcrep]
    · rw [if_neg hc]
      rw [ih (fun e he hp => hmem e (List.mem_cons_of_mem _ he) hp)
        (List.chain'_cons'.mp hch).2]

theorem collapseRuns_chain_preserve (p q : Char → Bool) (rep : Char)
    (hqrep : q rep = false) (l : List Char)
    (hch : List.Chain' (fun a b => ¬(q a = true ∧ q b = true)) l) :
    List.Chain' (fun a b => ¬(q a = true ∧ q b = true)) (collapseRuns p rep l) := by
  induction l with
  | nil => simp [collapseRuns]
  | cons c cs ih =>
    unfold collapseRuns
    by_cases hc : p c = true
    · rw [if_pos hc]
      cases cs with
      | nil => simp
      | cons d ds =>
        dsimp only
        have hch' := (List.chain'_cons'.mp hch).2
        by_cases hd : p d = true
        · rw [if_pos hd]
          exact ih hch'
        · rw [if_neg hd]
          rw [List.chain'_cons']
          constructor
          · intro b _ hand
            rw [hqrep] at hand
            exact absurd hand.1 (by simp)
          · exact ih hch'
    · rw [if_neg hc]
      rw [List.chain'_cons']
      have hch' := (List.chain'_cons'.mp hch).2
      constructor
      · intro b hb hand
        cases cs with
        | nil => simp [collapseRuns] at hb
        | cons d ds =>
          by_cases hd : p d = true
          · obtain ⟨t, ht⟩ := collapseRuns_head_pos p rep d ds hd
            rw [ht] at hb
            simp only [List.head?_cons, Option.mem_def, Option.some.injEq] at hb
            rw [← hb, hqrep] at hand
            exact absurd hand.2 (by simp)
          · obtain ⟨t, ht⟩ := collapseRuns_head_neg p rep d ds (by simpa using hd)
            rw [ht] at hb
            simp only [List.head?_cons, Option.mem_def, Option.some.injEq] at hb
            have hR := (List.chain'_cons.mp hch).1
            rw [← hb] at hand
            exact hR hand
      · exact ih hch'

/-- C8 (amended): `normalize` is idempotent on every string containing
no `.` and no `%` character (the failure modes need a trailing `.md`
left by the single-strip, or a `%20` turned into a space next to other
whitespace); on arbitrary strings it is not idempotent. -/
theorem normalizeFile_idempotent_no_dot_pct (F : String)
    (hdot : '.' ∉ F.data) (hpct : '%' ∉ F.data) :
    normalizeFile (normalizeFile F) = normalizeFile F := by
  have hmem2 := mem_collapseRuns isSep '/' F.data
  have hmem3 := mem_collapseRuns isWs ' ' (normSeps F.data)
  have hdot3 : '.' ∉ collapseWs (normSeps F.data) := by
    intro hm
    rcases hmem3 '.' hm with ⟨hm2, _⟩ | he
    · rcases hmem2 '.' hm2 with ⟨hm3, _⟩ | he2
      · exact hdot hm3
      · exact absurd he2 (by decide)
    · exact absurd he (by decide)
  have hpct3 : '%' ∉ collapseWs (normSeps F.data) := by
    intro hm
    rcases hmem3 '%' hm with ⟨hm2, _⟩ | he
    · rcases hmem2 '%' hm2 with ⟨hm3, _⟩ | he2
      · exact hpct hm3
      · exact absurd he2 (by decide)
    · exact absurd he (by decide)
  have hp3 : pct20ToSpace (collapseWs (normSeps F.data))
      = collapseWs (normSeps F.data) := pct20ToSpace_id hpct3
  have h2 : normalizeFile F = ⟨collapseWs (normSeps F.data)⟩ := by
    unfold normalizeFile
    rw [stripMd_id hdot, hp3]
  have hsepgood : ∀ x ∈ collapseWs (normSeps F.data), isSep x = true → x = '/' := by
    intro x hx hsx
    rcases hmem3 x hx with ⟨hm2, _⟩ | he
    · rcases hmem2 x hm2 with ⟨_, hns⟩ | he2
      · rw [hns] at hsx; exact absurd hsx (by simp)
      · exact he2
    · rw [he] at hsx; exact absurd hsx (by decide)
  have hsepchain := collapseRuns_chain_preserve isWs isSep ' ' (by decide)
    (normSeps F.data) (collapseRuns_chain isSep '/' F.data)
  have hns3 : normSeps (collapseWs (normSeps F.data))
      = collapseWs (normSeps F.data) :=
    collapseRuns_id_of_good isSep '/' _ hsepgood hsepchain
  have hwsgood : ∀ x ∈ collapseWs (normSeps F.data), isWs x = true → x = ' ' := by
    intro x hx hwx
    rcases hmem3 x hx with ⟨_, hnw⟩ | he
    · rw [hnw] at hwx; exact absurd hwx (by simp)
    · exact he
  have hwschain := collapseRuns_chain isWs ' ' (normSeps F.data)
  have hws3 : collapseWs (collapseWs (normSeps F.data))
      = collapseWs (normSeps F.data) :=
    collapseRuns_id_of_good isWs ' ' _ hwsgood hwschain
  rw [h2]
  unfold normalizeFile
  rw [show (⟨collapseWs (normSeps F.data)⟩ : String).data
      = collapseWs (normSeps F.data) from rfl]
  rw [stripMd_id hdot3, hns3, hws3, hp3]

theorem normalizeFile_idempotent_witness :
    normalizeFile (normalizeFile "a  b\\c") = normalizeFile "a  b\\c" :=
  normalizeFile_idempotent_no_dot_pct "a  b\\c" (by decide) (by decide)
